import Mathlib

/-!
Verification of the levenshtein-rs distance engine (src/lib.rs).

The source exposes four functions over `&str` (iterated as Unicode scalar
values, which we model as `List Char`):

  * `levenshtein_with_weigths`          (weighted distance)
  * `levenshtein`                        (uniform wrapper, weights 1/1/1)
  * `levenshtein_is_within_limit_with_weigths` (weighted boolean early-exit)
  * `levenshtein_is_within_limit`        (uniform wrapper)

The Rust `usize` arithmetic is modelled by `Nat`; `usize::MAX`, used only as
the initial value of the row-minimum accumulator, is modelled by
`Option Nat` with `none` standing for the maximal value.

Two embeddings of each loop are given: a lock-step recursion
(`processRow` / `processRowLim`) that consumes the cost row together with
the characters of `b`, and an indexed recursion (`rowIdx` / `rowIdxLim`)
that mirrors the Rust `cache[j]` accesses literally, returning `none` when
an index would be out of bounds.  They are proved to agree, which settles
the safety claim about indexing.
-/

namespace LevSrc

/-- `m1.min(m2).min(m3)` from the source. -/
def min3 (x y z : Nat) : Nat := Nat.min (Nat.min x y) z

/-- Inner loop of `levenshtein_with_weigths` (lines 90-109): lock-step over
the characters of `b` and the entries of `cache`; returns the new cache and
the final value of `left`. -/
def processRow (substitute delete insert : Nat) (ac : Char) :
    List Char → List Nat → Nat → Nat → List Nat × Nat
  | bc :: bs, cj :: cs, diagonal, left =>
      let best := min3 (diagonal + (if ac ≠ bc then 1 else 0) * substitute)
                       (cj + delete) (left + insert)
      let rest := processRow substitute delete insert ac bs cs cj best
      (best :: rest.1, rest.2)
  | _, _, _, left => ([], left)

/-- Outer loop of `levenshtein_with_weigths` (lines 86-110): one iteration
per character of `a`, with `diagonal = i` and `left = i + 1` at row start. -/
def levRows (substitute delete insert : Nat) (bchars : List Char) :
    List Char → Nat → List Nat → Nat → Nat
  | [], _, _, left => left
  | ac :: rest, i, cache, _ =>
      let row := processRow substitute delete insert ac bchars cache i (i + 1)
      levRows substitute delete insert bchars rest (i + 1) row.1 row.2

/-- `levenshtein_with_weigths` (lines 55-113).  The cost row is initialised
to `(1..=b_len)` and the equal / empty shortcuts return `0`, `b_len`,
`a_len` respectively. -/
def levenshtein_with_weigths (a b : List Char) (substitute delete insert : Nat) : Nat :=
  if a = b then 0
  else if a = [] then b.length
  else if b = [] then a.length
  else levRows substitute delete insert b a 0 (List.range' 1 b.length) 1

/-- `levenshtein` (lines 42-44): all weights are 1. -/
def levenshtein (a b : List Char) : Nat :=
  levenshtein_with_weigths a b 1 1 1

/-- `if best < best_of_row { best_of_row = best }` (lines 200-202), with
`none` playing the role of the initial `usize::MAX`. -/
def optMin (acc : Option Nat) (x : Nat) : Option Nat :=
  match acc with
  | none => some x
  | some m => if x < m then some x else some m

/-- The test `best_of_row > limit` (line 205); `none` is `usize::MAX`,
which exceeds every limit. -/
def bestExceeds (acc : Option Nat) (limit : Nat) : Bool :=
  match acc with
  | none => true
  | some v => decide (limit < v)

/-- Inner loop of `levenshtein_is_within_limit_with_weigths`
(lines 180-203): identical to `processRow` but additionally tracks the
minimum value produced in the row. -/
def processRowLim (substitute delete insert : Nat) (ac : Char) :
    List Char → List Nat → Nat → Nat → Option Nat → List Nat × Nat × Option Nat
  | bc :: bs, cj :: cs, diagonal, left, bestOfRow =>
      let best := min3 (diagonal + (if ac ≠ bc then 1 else 0) * substitute)
                       (cj + delete) (left + insert)
      let rest := processRowLim substitute delete insert ac bs cs cj best (optMin bestOfRow best)
      (best :: rest.1, rest.2)
  | _, _, _, left, bestOfRow => ([], left, bestOfRow)

/-- Outer loop of `levenshtein_is_within_limit_with_weigths`
(lines 174-208): early exit with `false` once the row minimum exceeds the
limit, `true` if every row passes. -/
def limRows (substitute delete insert limit : Nat) (bchars : List Char) :
    List Char → Nat → List Nat → Bool
  | [], _, _ => true
  | ac :: rest, i, cache =>
      let row := processRowLim substitute delete insert ac bchars cache i (i + 1) none
      if bestExceeds row.2.2 limit then false
      else limRows substitute delete insert limit bchars rest (i + 1) row.1

/-- `levenshtein_is_within_limit_with_weigths` (lines 142-211). -/
def levenshtein_is_within_limit_with_weigths
    (a b : List Char) (limit substitute delete insert : Nat) : Bool :=
  if a = b then true
  else if a = [] then decide (b.length < limit)
  else if b = [] then decide (a.length < limit)
  else limRows substitute delete insert limit b a 0 (List.range' 1 b.length)

/-- `levenshtein_is_within_limit` (lines 127-129): all weights are 1. -/
def levenshtein_is_within_limit (a b : List Char) (limit : Nat) : Bool :=
  levenshtein_is_within_limit_with_weigths a b limit 1 1 1

/-! ### The matrices

`specD` is the matrix of claim C1 / spec section 4.1, with the weighted
boundary `D[0][j] = j * insert`, `D[i][0] = i * delete`.  `codeD` is the
matrix the code actually fills in, whose boundary row and column are the
raw counts `j` and `i` (the initial cache is `(1..=b_len)` and the first
column registers are `diagonal = i`, `left = i + 1`, with no weight
applied).  Both are given by a structural double recursion so that they
evaluate by kernel reduction. -/

/-- Interior rows of the spec matrix: row `i + 1` as a function of row `i`. -/
def specDAux (substitute delete insert : Nat) (a b : List Char) (i : Nat)
    (prev : Nat → Nat) : Nat → Nat
  | 0 => (i + 1) * delete
  | j + 1 =>
      min3 (prev j + (if a.getD i ' ' ≠ b.getD j ' ' then 1 else 0) * substitute)
           (prev (j + 1) + delete)
           (specDAux substitute delete insert a b i prev j + insert)

/-- The matrix of claim C1: boundary `D[0][j] = j * insert`,
`D[i][0] = i * delete`, interior cells by the weighted recurrence. -/
def specD (substitute delete insert : Nat) (a b : List Char) : Nat → Nat → Nat
  | 0 => fun j => j * insert
  | i + 1 => specDAux substitute delete insert a b i (specD substitute delete insert a b i)

/-- Interior rows of the code's matrix: row `i + 1` as a function of row `i`,
with the weight-blind first column `i + 1`. -/
def codeDAux (substitute delete insert : Nat) (a b : List Char) (i : Nat)
    (prev : Nat → Nat) : Nat → Nat
  | 0 => i + 1
  | j + 1 =>
      min3 (prev j + (if a.getD i ' ' ≠ b.getD j ' ' then 1 else 0) * substitute)
           (prev (j + 1) + delete)
           (codeDAux substitute delete insert a b i prev j + insert)

/-- The matrix the code fills in: boundary `D[0][j] = j`, `D[i][0] = i`
(no weights applied on the boundary), interior cells by the weighted
recurrence. -/
def codeD (substitute delete insert : Nat) (a b : List Char) : Nat → Nat → Nat
  | 0 => fun j => j
  | i + 1 => codeDAux substitute delete insert a b i (codeD substitute delete insert a b i)

/-- The row of the code's matrix held in `cache` when entering outer
iteration `i`, restricted to columns `j + 1, …, n`. -/
def tailCache (substitute delete insert : Nat) (a b : List Char) (i j : Nat) : List Nat :=
  (List.range' j (b.length - j)).map (fun t => codeD substitute delete insert a b i (t + 1))

/-- Textbook recursive uniform edit distance, used as the reference for the
uniform-weight claims. -/
def lev : List Char → List Char → Nat
  | [], bs => bs.length
  | _ :: ta, [] => ta.length + 1
  | x :: xs, y :: ys =>
      if x = y then lev xs ys
      else 1 + min3 (lev xs ys) (lev xs (y :: ys)) (lev (x :: xs) ys)
termination_by a b => a.length + b.length
decreasing_by all_goals (simp only [List.length_cons]; omega)

/-! ### Indexed models of the two loops

These mirror the Rust `cache[j]` reads and writes literally: the cache is
kept whole, position `j` is read with `cache[j]?`, and a `none` result is
the out-of-bounds panic branch. -/

/-- Indexed form of the inner loop of `levenshtein_with_weigths`:
`m2 = cache[j] + delete`, then `cache[j] = best`. -/
def rowIdx (substitute delete insert : Nat) (ac : Char) :
    List Char → Nat → List Nat → Nat → Nat → Option (List Nat × Nat)
  | [], _, cache, _, left => some (cache, left)
  | bc :: bs, j, cache, diagonal, left =>
      match cache[j]? with
      | none => none
      | some cj =>
          let best := min3 (diagonal + (if ac ≠ bc then 1 else 0) * substitute)
                           (cj + delete) (left + insert)
          rowIdx substitute delete insert ac bs (j + 1) (cache.set j best) cj best

/-- Indexed form of the outer loop of `levenshtein_with_weigths`. -/
def levRowsIdx (substitute delete insert : Nat) (bchars : List Char) :
    List Char → Nat → List Nat → Nat → Option Nat
  | [], _, _, left => some left
  | ac :: rest, i, cache, _ =>
      match rowIdx substitute delete insert ac bchars 0 cache i (i + 1) with
      | none => none
      | some rowRes => levRowsIdx substitute delete insert bchars rest (i + 1) rowRes.1 rowRes.2

/-- Indexed model of `levenshtein_with_weigths`; `none` marks an
out-of-bounds cache access. -/
def levenshtein_with_weigths_idx (a b : List Char) (substitute delete insert : Nat) :
    Option Nat :=
  if a = b then some 0
  else if a = [] then some b.length
  else if b = [] then some a.length
  else levRowsIdx substitute delete insert b a 0 (List.range' 1 b.length) 1

/-- Indexed form of the inner loop of
`levenshtein_is_within_limit_with_weigths`. -/
def rowIdxLim (substitute delete insert : Nat) (ac : Char) :
    List Char → Nat → List Nat → Nat → Nat → Option Nat → Option (List Nat × Option Nat)
  | [], _, cache, _, _, bestOfRow => some (cache, bestOfRow)
  | bc :: bs, j, cache, diagonal, left, bestOfRow =>
      match cache[j]? with
      | none => none
      | some cj =>
          let best := min3 (diagonal + (if ac ≠ bc then 1 else 0) * substitute)
                           (cj + delete) (left + insert)
          rowIdxLim substitute delete insert ac bs (j + 1) (cache.set j best) cj best
            (optMin bestOfRow best)

/-- Indexed form of the outer loop of
`levenshtein_is_within_limit_with_weigths`. -/
def limRowsIdx (substitute delete insert limit : Nat) (bchars : List Char) :
    List Char → Nat → List Nat → Option Bool
  | [], _, _ => some true
  | ac :: rest, i, cache =>
      match rowIdxLim substitute delete insert ac bchars 0 cache i (i + 1) none with
      | none => none
      | some rowRes =>
          if bestExceeds rowRes.2 limit then some false
          else limRowsIdx substitute delete insert limit bchars rest (i + 1) rowRes.1

/-- Indexed model of `levenshtein_is_within_limit_with_weigths`. -/
def levenshtein_is_within_limit_with_weigths_idx
    (a b : List Char) (limit substitute delete insert : Nat) : Option Bool :=
  if a = b then some true
  else if a = [] then some (decide (b.length < limit))
  else if b = [] then some (decide (a.length < limit))
  else limRowsIdx substitute delete insert limit b a 0 (List.range' 1 b.length)

/-! ### Arithmetic helpers for `min3` -/

theorem min3_le_left (x y z : Nat) : min3 x y z ≤ x := by
  simp only [min3, Nat.min_def]; split_ifs <;> omega

theorem min3_le_mid (x y z : Nat) : min3 x y z ≤ y := by
  simp only [min3, Nat.min_def]; split_ifs <;> omega

theorem min3_le_right (x y z : Nat) : min3 x y z ≤ z := by
  simp only [min3, Nat.min_def]; split_ifs <;> omega

theorem le_min3_iff (k x y z : Nat) : k ≤ min3 x y z ↔ k ≤ x ∧ k ≤ y ∧ k ≤ z := by
  simp only [min3, Nat.min_def]; split_ifs <;> omega

theorem lt_min3_iff (k x y z : Nat) : k < min3 x y z ↔ k < x ∧ k < y ∧ k < z := by
  simp only [min3, Nat.min_def]; split_ifs <;> omega

theorem min3_add (x y z c : Nat) : min3 (x + c) (y + c) (z + c) = min3 x y z + c := by
  simp only [min3, Nat.min_def]; split_ifs <;> omega

theorem min3_eq_left (x y z : Nat) (h1 : x ≤ y) (h2 : x ≤ z) : min3 x y z = x := by
  simp only [min3, Nat.min_def]; split_ifs <;> omega

theorem min3_eq_zero_iff (x y z : Nat) : min3 x y z = 0 ↔ x = 0 ∨ y = 0 ∨ z = 0 := by
  simp only [min3, Nat.min_def]; split_ifs <;> omega

theorem min3_eq_or (x y z : Nat) : min3 x y z = x ∨ min3 x y z = y ∨ min3 x y z = z := by
  simp only [min3, Nat.min_def]; split_ifs <;> omega

theorem min3_left_comm (x y z : Nat) : min3 x y z = min3 x z y := by
  simp only [min3, Nat.min_def]; split_ifs <;> omega

/-! ### List helpers -/

theorem drop_cons_getD {l : List Char} {i : Nat} {x : Char} {xs : List Char} (d : Char)
    (h : l.drop i = x :: xs) : l.getD i d = x := by
  induction l generalizing i with
  | nil => simp at h
  | cons hd tl ih =>
      cases i with
      | zero =>
          rw [List.drop_zero] at h
          injection h
      | succ i =>
          rw [List.drop_succ_cons] at h
          rw [List.getD_cons_succ]
          exact ih h

theorem drop_cons_succ {l : List Char} {i : Nat} {x : Char} {xs : List Char}
    (h : l.drop i = x :: xs) : l.drop (i + 1) = xs := by
  induction l generalizing i with
  | nil => simp at h
  | cons hd tl ih =>
      cases i with
      | zero =>
          rw [List.drop_zero] at h
          injection h
      | succ i =>
          rw [List.drop_succ_cons] at h
          rw [List.drop_succ_cons]
          exact ih h

theorem drop_cons_lt {l : List Char} {i : Nat} {x : Char} {xs : List Char}
    (h : l.drop i = x :: xs) : i < l.length := by
  by_contra hc
  rw [List.drop_eq_nil_of_le (by omega)] at h
  exact List.noConfusion h

theorem drop_len_le {l : List Char} {i : Nat} (h : l.drop i = ([] : List Char)) :
    l.length ≤ i := by
  by_contra hc
  have := List.length_drop i l
  rw [h] at this
  simp at this
  omega

theorem take_succ_getD {l : List Char} {i : Nat} (d : Char) (h : i < l.length) :
    l.take (i + 1) = l.take i ++ [l.getD i d] := by
  induction l generalizing i with
  | nil => simp at h
  | cons hd tl ih =>
      cases i with
      | zero => simp
      | succ i =>
          simp only [List.length_cons] at h
          simp only [List.take_succ_cons, List.getD_cons_succ, List.cons_append]
          rw [ih (by omega)]

theorem range'_map_succ (j k : Nat) :
    (List.range' j k).map (fun t => t + 1) = List.range' (j + 1) k := by
  induction k generalizing j with
  | zero => simp
  | succ k ih => simp [List.range'_succ, ih]

/-! ### The code's matrix: equations and the loop correspondence -/

theorem codeD_zero_left (s d ins : Nat) (a b : List Char) (j : Nat) :
    codeD s d ins a b 0 j = j := rfl

theorem codeD_zero_right (s d ins : Nat) (a b : List Char) (i : Nat) :
    codeD s d ins a b i 0 = i := by
  cases i <;> rfl

theorem codeD_succ_succ (s d ins : Nat) (a b : List Char) (i j : Nat) :
    codeD s d ins a b (i + 1) (j + 1)
      = min3 (codeD s d ins a b i j + (if a.getD i ' ' ≠ b.getD j ' ' then 1 else 0) * s)
             (codeD s d ins a b i (j + 1) + d)
             (codeD s d ins a b (i + 1) j + ins) := rfl

theorem specD_zero_left (s d ins : Nat) (a b : List Char) (j : Nat) :
    specD s d ins a b 0 j = j * ins := rfl

theorem specD_succ_zero (s d ins : Nat) (a b : List Char) (i : Nat) :
    specD s d ins a b (i + 1) 0 = (i + 1) * d := rfl

theorem specD_succ_succ (s d ins : Nat) (a b : List Char) (i j : Nat) :
    specD s d ins a b (i + 1) (j + 1)
      = min3 (specD s d ins a b i j + (if a.getD i ' ' ≠ b.getD j ' ' then 1 else 0) * s)
             (specD s d ins a b i (j + 1) + d)
             (specD s d ins a b (i + 1) j + ins) := rfl

theorem tailCache_stop (s d ins : Nat) (a b : List Char) (i j : Nat)
    (h : b.length ≤ j) : tailCache s d ins a b i j = [] := by
  unfold tailCache
  rw [Nat.sub_eq_zero_of_le h]
  rfl

theorem tailCache_cons (s d ins : Nat) (a b : List Char) (i j : Nat)
    (h : j < b.length) :
    tailCache s d ins a b i j
      = codeD s d ins a b i (j + 1) :: tailCache s d ins a b i (j + 1) := by
  unfold tailCache
  rw [show b.length - j = (b.length - (j + 1)) + 1 by omega, List.range'_succ]
  rfl

/-- The inner loop, started at column `j` with the cache holding row `i` of
the code's matrix, produces row `i + 1` and leaves `left` at the last cell
of row `i + 1`. -/
theorem processRow_spec (s d ins : Nat) (a b : List Char) :
    ∀ (bd : List Char) (j i : Nat), b.drop j = bd → j ≤ b.length →
      processRow s d ins (a.getD i ' ') bd (tailCache s d ins a b i j)
          (codeD s d ins a b i j) (codeD s d ins a b (i + 1) j)
        = (tailCache s d ins a b (i + 1) j, codeD s d ins a b (i + 1) b.length) := by
  intro bd
  induction bd with
  | nil =>
      intro j i hdrop hle
      have hn : b.length ≤ j := drop_len_le hdrop
      have hj : j = b.length := by omega
      subst hj
      rw [tailCache_stop s d ins a b i b.length (Nat.le_refl _),
          tailCache_stop s d ins a b (i + 1) b.length (Nat.le_refl _)]
      rfl
  | cons bc bd' ih =>
      intro j i hdrop hle
      have hlt : j < b.length := drop_cons_lt hdrop
      have hbc : b.getD j ' ' = bc := drop_cons_getD ' ' hdrop
      have hd' : b.drop (j + 1) = bd' := drop_cons_succ hdrop
      rw [tailCache_cons s d ins a b i j hlt]
      show (min3 (codeD s d ins a b i j + (if a.getD i ' ' ≠ bc then 1 else 0) * s)
              (codeD s d ins a b i (j + 1) + d)
              (codeD s d ins a b (i + 1) j + ins)
            :: (processRow s d ins (a.getD i ' ') bd' (tailCache s d ins a b i (j + 1))
                  (codeD s d ins a b i (j + 1)) _).1,
            (processRow s d ins (a.getD i ' ') bd' (tailCache s d ins a b i (j + 1))
                  (codeD s d ins a b i (j + 1)) _).2) = _
      rw [← hbc, ← codeD_succ_succ]
      rw [ih (j + 1) i hd' (by omega)]
      rw [tailCache_cons s d ins a b (i + 1) j hlt]

/-- The outer loop, entered at row `i` with the cache holding row `i`,
returns the bottom-right cell of the code's matrix. -/
theorem levRows_spec (s d ins : Nat) (a b : List Char) :
    ∀ (ad : List Char) (i lft : Nat), a.drop i = ad → i ≤ a.length →
      (ad = [] → lft = codeD s d ins a b i b.length) →
      levRows s d ins b ad i (tailCache s d ins a b i 0) lft
        = codeD s d ins a b a.length b.length := by
  intro ad
  induction ad with
  | nil =>
      intro i lft hdrop hle hl
      have hn : a.length ≤ i := drop_len_le hdrop
      have hi : i = a.length := by omega
      subst hi
      simpa [levRows] using hl rfl
  | cons ac ad' ih =>
      intro i lft hdrop hle hl
      have hlt : i < a.length := drop_cons_lt hdrop
      have hac : a.getD i ' ' = ac := drop_cons_getD ' ' hdrop
      have hd' : a.drop (i + 1) = ad' := drop_cons_succ hdrop
      have hrow : processRow s d ins (a.getD i ' ') b (tailCache s d ins a b i 0) i (i + 1)
          = (tailCache s d ins a b (i + 1) 0, codeD s d ins a b (i + 1) b.length) := by
        have h := processRow_spec s d ins a b b 0 i (List.drop_zero b) (Nat.zero_le _)
        rwa [codeD_zero_right s d ins a b i, codeD_zero_right s d ins a b (i + 1)] at h
      show levRows s d ins b ad' (i + 1)
          (processRow s d ins ac b (tailCache s d ins a b i 0) i (i + 1)).1
          (processRow s d ins ac b (tailCache s d ins a b i 0) i (i + 1)).2
        = codeD s d ins a b a.length b.length
      rw [← hac, hrow]
      exact ih (i + 1) _ hd' (by omega) (fun _ => rfl)

theorem min3_zero_left (y z : Nat) : min3 0 y z = 0 := by
  simp [min3]

/-- On the diagonal with equal inputs the code's matrix is zero. -/
theorem codeD_self (s d ins : Nat) (a : List Char) : ∀ i, codeD s d ins a a i i = 0 := by
  intro i
  induction i with
  | zero => rfl
  | succ i ih =>
      rw [codeD_succ_succ, ih]
      simp [min3_zero_left]

/-- `levenshtein_with_weigths` on non-empty inputs computes the
bottom-right cell of the code's matrix. -/
theorem levW_eq_codeD (s d ins : Nat) (a b : List Char) (ha : a ≠ []) (hb : b ≠ []) :
    levenshtein_with_weigths a b s d ins = codeD s d ins a b a.length b.length := by
  by_cases hab : a = b
  · rw [levenshtein_with_weigths, if_pos hab]
    subst hab
    exact (codeD_self s d ins a a.length).symm
  · rw [levenshtein_with_weigths, if_neg hab, if_neg ha, if_neg hb]
    have h0 : tailCache s d ins a b 0 0 = List.range' 1 b.length := by
      unfold tailCache
      rw [Nat.sub_zero]
      rw [show (fun t => codeD s d ins a b 0 (t + 1)) = (fun t => t + 1) from rfl]
      exact range'_map_succ 0 b.length
    rw [← h0]
    exact levRows_spec s d ins a b a 0 1 (List.drop_zero a) (Nat.zero_le _)
      (fun h => absurd h ha)

theorem min3_zero_right (x y : Nat) : min3 x y 0 = 0 := by
  have := min3_le_right x y 0
  omega

theorem min3_zero_mid (x z : Nat) : min3 x 0 z = 0 := by
  have := min3_le_mid x 0 z
  omega

/-- With all weights zero every interior cell of the code's matrix is zero. -/
theorem codeD_zero_weights (a b : List Char) :
    ∀ i j, 1 ≤ i → 1 ≤ j → codeD 0 0 0 a b i j = 0 := by
  intro i
  induction i with
  | zero => intro j h1 _; omega
  | succ i ih =>
      intro j
      induction j with
      | zero => intro _ h2; omega
      | succ j ihj =>
          intro _ _
          rw [codeD_succ_succ]
          simp only [Nat.mul_zero, Nat.add_zero]
          rcases Nat.eq_zero_or_pos j with hj | hj
          · subst hj
            rcases Nat.eq_zero_or_pos i with hi | hi
            · subst hi
              rw [codeD_zero_left]
              exact min3_zero_left _ _
            · rw [ih 1 hi (by omega)]
              exact min3_zero_mid _ _
          · rw [ihj (by omega) hj]
            exact min3_zero_right _ _

/-- With positive weights a zero cell of the code's matrix forces the two
prefixes to be equal. -/
theorem codeD_pos_take (s d ins : Nat) (a b : List Char)
    (hs : 1 ≤ s) (hd : 1 ≤ d) (hins : 1 ≤ ins) :
    ∀ i j, i ≤ a.length → j ≤ b.length → codeD s d ins a b i j = 0 →
      a.take i = b.take j := by
  intro i
  induction i with
  | zero =>
      intro j _ _ h
      rw [codeD_zero_left] at h
      subst h
      rfl
  | succ i ih =>
      intro j hi hj h
      cases j with
      | zero =>
          rw [codeD_zero_right] at h
          exact absurd h (by omega)
      | succ j =>
          rw [codeD_succ_succ] at h
          rcases (min3_eq_zero_iff _ _ _).1 h with h1 | h2 | h3
          · have hc : codeD s d ins a b i j = 0 ∧
                (if a.getD i ' ' ≠ b.getD j ' ' then 1 else 0) * s = 0 := by omega
            have hchar : a.getD i ' ' = b.getD j ' ' := by
              by_contra hne
              rw [if_pos hne] at hc
              omega
            rw [take_succ_getD ' ' (by omega), take_succ_getD ' ' (by omega),
                ih j (by omega) (by omega) hc.1, hchar]
          · omega
          · omega

/-! ### The textbook distance `lev`: equations and one-step bounds -/

theorem lev_nil_left (bs : List Char) : lev [] bs = bs.length := by
  simp [lev]

theorem lev_cons_nil (x : Char) (ta : List Char) : lev (x :: ta) [] = ta.length + 1 := by
  simp [lev]

theorem lev_nil_right (a : List Char) : lev a [] = a.length := by
  cases a <;> simp [lev]

theorem lev_cons_cons (x y : Char) (xs ys : List Char) :
    lev (x :: xs) (y :: ys) =
      if x = y then lev xs ys
      else 1 + min3 (lev xs ys) (lev xs (y :: ys)) (lev (x :: xs) ys) := by
  rw [lev]

theorem lev_self (a : List Char) : lev a a = 0 := by
  induction a with
  | nil => simp [lev]
  | cons x xs ih => rw [lev_cons_cons, if_pos rfl, ih]

/-- Joint Lipschitz bounds: prepending a character to either argument
changes `lev` by at most one (one direction each). -/
theorem lev_lipschitz :
    ∀ N a b, a.length + b.length ≤ N →
      (∀ x : Char, lev (x :: a) b ≤ lev a b + 1) ∧
      (∀ y : Char, lev a b ≤ lev a (y :: b) + 1) := by
  intro N
  induction N with
  | zero =>
      intro a b h
      have ha : a = [] := by
        cases a with
        | nil => rfl
        | cons _ _ => simp [List.length_cons] at h
      have hb : b = [] := by
        cases b with
        | nil => rfl
        | cons _ _ => simp [List.length_cons] at h
      subst ha; subst hb
      constructor
      · intro x; simp [lev]
      · intro y; simp [lev]
  | succ N ihN =>
      intro a b h
      constructor
      · intro x
        cases b with
        | nil => rw [lev_cons_nil, lev_nil_right]
        | cons z b' =>
            rw [lev_cons_cons]
            by_cases hxz : x = z
            · rw [if_pos hxz]
              have := (ihN a b' (by simp [List.length_cons] at h ⊢; omega)).2 z
              omega
            · rw [if_neg hxz]
              have := min3_le_mid (lev a b') (lev a (z :: b')) (lev (x :: a) b')
              omega
      · intro y
        cases a with
        | nil =>
            rw [lev_nil_left, lev_nil_left]
            simp only [List.length_cons]
            omega
        | cons x a' =>
            rw [lev_cons_cons]
            by_cases hxy : x = y
            · rw [if_pos hxy]
              have := (ihN a' b (by simp [List.length_cons] at h ⊢; omega)).1 x
              omega
            · rw [if_neg hxy]
              have h1 := (ihN a' b (by simp [List.length_cons] at h ⊢; omega)).1 x
              have h2 := (ihN a' b (by simp [List.length_cons] at h ⊢; omega)).2 y
              rcases min3_eq_or (lev a' b) (lev a' (y :: b)) (lev (x :: a') b) with
                hm | hm | hm <;> omega

theorem lev_cons_left_le (x : Char) (a b : List Char) : lev (x :: a) b ≤ lev a b + 1 :=
  (lev_lipschitz (a.length + b.length) a b (Nat.le_refl _)).1 x

theorem lev_le_cons_right (y : Char) (a b : List Char) : lev a b ≤ lev a (y :: b) + 1 :=
  (lev_lipschitz (a.length + b.length) a b (Nat.le_refl _)).2 y

theorem lev_symm : ∀ N a b, a.length + b.length ≤ N → lev a b = lev b a := by
  intro N
  induction N with
  | zero =>
      intro a b h
      have ha : a = [] := List.length_eq_zero.1 (by omega)
      have hb : b = [] := List.length_eq_zero.1 (by omega)
      subst ha; subst hb; rfl
  | succ N ihN =>
      intro a b h
      cases a with
      | nil => rw [lev_nil_left, lev_nil_right]
      | cons x xs =>
          cases b with
          | nil => rw [lev_nil_right, lev_nil_left]
          | cons y ys =>
              rw [lev_cons_cons, lev_cons_cons]
              simp only [List.length_cons] at h
              have e1 : lev xs ys = lev ys xs := ihN xs ys (by omega)
              have e2 : lev xs (y :: ys) = lev (y :: ys) xs :=
                ihN xs (y :: ys) (by simp [List.length_cons]; omega)
              have e3 : lev (x :: xs) ys = lev ys (x :: xs) :=
                ihN (x :: xs) ys (by simp [List.length_cons]; omega)
              by_cases hxy : x = y
              · rw [if_pos hxy, if_pos hxy.symm, e1]
              · rw [if_neg hxy, if_neg (fun hc => hxy hc.symm), e1, e2, e3]
                rw [min3_left_comm]

theorem lev_comm (a b : List Char) : lev a b = lev b a :=
  lev_symm (a.length + b.length) a b (Nat.le_refl _)

theorem lev_cons_right_le (y : Char) (a b : List Char) : lev a (y :: b) ≤ lev a b + 1 := by
  rw [lev_comm a (y :: b), lev_comm a b]
  exact lev_cons_left_le y b a

theorem lev_le_cons_left (x : Char) (a b : List Char) : lev a b ≤ lev (x :: a) b + 1 := by
  rw [lev_comm a b, lev_comm (x :: a) b]
  exact lev_le_cons_right x b a

/-- Dropping the heads of both arguments lowers `lev` by at most one. -/
theorem lev_le_cons_cons (x y : Char) (a b : List Char) :
    lev a b ≤ lev (x :: a) (y :: b) + 1 := by
  rw [lev_cons_cons]
  by_cases hxy : x = y
  · rw [if_pos hxy]; omega
  · rw [if_neg hxy]
    have h3 := lev_le_cons_left x a b
    have h4 := lev_le_cons_right y a b
    have h4' := lev_le_cons_right y a b
    rcases min3_eq_or (lev a b) (lev a (y :: b)) (lev (x :: a) b) with hm | hm | hm
    · omega
    · have := lev_le_cons_right y a b
      omega
    · have := lev_le_cons_left x a b
      omega

/-- Upper bound: delete everything, insert everything. -/
theorem lev_le_add (a b : List Char) : lev a b ≤ a.length + b.length := by
  induction a with
  | nil => rw [lev_nil_left]; omega
  | cons x a' ih =>
      have := lev_cons_left_le x a' b
      simp only [List.length_cons]
      omega

/-- Lower bound: at least the length difference, right version. -/
theorem length_le_lev : ∀ N a b, a.length + b.length ≤ N →
    b.length ≤ a.length + lev a b := by
  intro N
  induction N with
  | zero =>
      intro a b h
      have hb : b = [] := List.length_eq_zero.1 (by omega)
      subst hb; simp
  | succ N ihN =>
      intro a b h
      cases a with
      | nil => rw [lev_nil_left]; omega
      | cons x a' =>
          cases b with
          | nil => simp
          | cons z b' =>
              simp only [List.length_cons] at h ⊢
              rw [lev_cons_cons]
              by_cases hxz : x = z
              · rw [if_pos hxz]
                have := ihN a' b' (by omega)
                omega
              · rw [if_neg hxz]
                have i1 := ihN a' b' (by omega)
                have i2 := ihN a' (z :: b') (by simp [List.length_cons]; omega)
                have i3 := ihN (x :: a') b' (by simp [List.length_cons]; omega)
                simp only [List.length_cons] at i2 i3
                rcases min3_eq_or (lev a' b') (lev a' (z :: b')) (lev (x :: a') b') with
                  hm | hm | hm <;> omega

theorem length_le_lev_right (a b : List Char) : b.length ≤ a.length + lev a b :=
  length_le_lev (a.length + b.length) a b (Nat.le_refl _)

theorem length_le_lev_left (a b : List Char) : a.length ≤ b.length + lev a b := by
  rw [lev_comm]
  exact length_le_lev_right b a

/-- Triangle inequality for the textbook distance. -/
theorem lev_triangle_aux : ∀ N a b c, a.length + b.length + c.length ≤ N →
    lev a c ≤ lev a b + lev b c := by
  intro N
  induction N with
  | zero =>
      intro a b c h
      have ha : a = [] := List.length_eq_zero.1 (by omega)
      have hc : c = [] := List.length_eq_zero.1 (by omega)
      subst ha; subst hc
      rw [lev_nil_left]
      exact Nat.zero_le _
  | succ N ihN =>
      intro a b c h
      cases b with
      | nil =>
          rw [lev_nil_right, lev_nil_left]
          have := lev_le_add a c
          omega
      | cons y b' =>
          cases a with
          | nil =>
              rw [lev_nil_left, lev_nil_left]
              have := length_le_lev_right (y :: b') c
              omega
          | cons x a' =>
              cases c with
              | nil =>
                  rw [lev_nil_right, lev_nil_right]
                  have := length_le_lev_left (x :: a') (y :: b')
                  omega
              | cons z c' =>
                  simp only [List.length_cons] at h
                  by_cases hxy : x = y
                  · by_cases hyz : y = z
                    · have hxz : x = z := hxy.trans hyz
                      rw [lev_cons_cons x z, if_pos hxz, lev_cons_cons x y, if_pos hxy,
                          lev_cons_cons y z, if_pos hyz]
                      exact ihN a' b' c' (by omega)
                    · have hxz : x ≠ z := fun hc => hyz (hxy.symm.trans hc)
                      rw [lev_cons_cons x y, if_pos hxy, lev_cons_cons y z, if_neg hyz]
                      have hac : lev (x :: a') (z :: c')
                          = 1 + min3 (lev a' c') (lev a' (z :: c')) (lev (x :: a') c') := by
                        rw [lev_cons_cons, if_neg hxz]
                      have m1 := min3_le_left (lev a' c') (lev a' (z :: c')) (lev (x :: a') c')
                      have m2 := min3_le_mid (lev a' c') (lev a' (z :: c')) (lev (x :: a') c')
                      have m3 := min3_le_right (lev a' c') (lev a' (z :: c')) (lev (x :: a') c')
                      rcases min3_eq_or (lev b' c') (lev b' (z :: c')) (lev (y :: b') c') with
                        hm | hm | hm
                      · have hI := ihN a' b' c' (by omega)
                        omega
                      · have hI := ihN a' b' (z :: c') (by simp [List.length_cons]; omega)
                        omega
                      · have hI := ihN (x :: a') (y :: b') c' (by simp [List.length_cons]; omega)
                        have hab : lev (x :: a') (y :: b') = lev a' b' := by
                          rw [lev_cons_cons, if_pos hxy]
                        omega
                  · rw [lev_cons_cons x y, if_neg hxy]
                    rcases min3_eq_or (lev a' b') (lev a' (y :: b')) (lev (x :: a') b') with
                      hm | hm | hm
                    · by_cases hxz : x = z
                      · rw [lev_cons_cons x z, if_pos hxz]
                        have hI := ihN a' b' c' (by omega)
                        have hBD := lev_le_cons_cons y z b' c'
                        omega
                      · have hac : lev (x :: a') (z :: c')
                            = 1 + min3 (lev a' c') (lev a' (z :: c')) (lev (x :: a') c') := by
                          rw [lev_cons_cons, if_neg hxz]
                        have m1 := min3_le_left (lev a' c') (lev a' (z :: c')) (lev (x :: a') c')
                        have m2 := min3_le_mid (lev a' c') (lev a' (z :: c')) (lev (x :: a') c')
                        have m3 := min3_le_right (lev a' c') (lev a' (z :: c')) (lev (x :: a') c')
                        by_cases hyz : y = z
                        · rw [lev_cons_cons y z, if_pos hyz]
                          have hI := ihN a' b' c' (by omega)
                          omega
                        · rw [lev_cons_cons y z, if_neg hyz]
                          rcases min3_eq_or (lev b' c') (lev b' (z :: c')) (lev (y :: b') c')
                            with hb2 | hb2 | hb2
                          · have hI := ihN a' b' c' (by omega)
                            omega
                          · have hI := ihN a' b' (z :: c') (by simp [List.length_cons]; omega)
                            omega
                          · have hI := ihN (x :: a') (y :: b') c'
                              (by simp [List.length_cons]; omega)
                            have hab : lev (x :: a') (y :: b')
                                = 1 + min3 (lev a' b') (lev a' (y :: b')) (lev (x :: a') b') := by
                              rw [lev_cons_cons, if_neg hxy]
                            omega
                    · have h1 := lev_cons_left_le x a' (z :: c')
                      have hI := ihN a' (y :: b') (z :: c') (by simp [List.length_cons]; omega)
                      omega
                    · have hI := ihN (x :: a') b' (z :: c') (by simp [List.length_cons]; omega)
                      have h3 := lev_le_cons_left y b' (z :: c')
                      omega

theorem lev_triangle (a b c : List Char) : lev a c ≤ lev a b + lev b c :=
  lev_triangle_aux (a.length + b.length + c.length) a b c (Nat.le_refl _)

/-! ### Snoc recursion and reversal invariance of `lev` -/

theorem min3_succ (x y z : Nat) : min3 (1 + x) (1 + y) (1 + z) = 1 + min3 x y z := by
  simp only [min3, Nat.min_def]; split_ifs <;> omega

theorem min3_succ' (x y z : Nat) : min3 (x + 1) (y + 1) (z + 1) = min3 x y z + 1 := by
  simp only [min3, Nat.min_def]; split_ifs <;> omega

theorem min9_transpose (a b c d e f g h i : Nat) :
    min3 (min3 a b c) (min3 d e f) (min3 g h i)
      = min3 (min3 a d g) (min3 b e h) (min3 c f i) := by
  simp only [min3, Nat.min_comm, Nat.min_assoc, Nat.min_left_comm]

/-- Appending one character on the right, singleton left argument. -/
theorem lev_single_snoc (x y : Char) (b : List Char) :
    lev [x] (b ++ [y])
      = if x = y then b.length else 1 + min3 b.length (b.length + 1) (lev [x] b) := by
  induction b with
  | nil =>
      rw [List.nil_append, lev_cons_cons]
      simp [lev_nil_left]
  | cons v b'' ih =>
      rw [List.cons_append, lev_cons_cons, ih, lev_cons_cons x v]
      simp only [lev_nil_left, List.length_append, List.length_cons, List.length_nil,
        Nat.zero_add]
      simp only [min3, Nat.min_def]
      split_ifs <;> omega

/-- Appending one character on the right, singleton right argument. -/
theorem lev_snoc_single (x y : Char) (a : List Char) :
    lev (a ++ [x]) [y]
      = if x = y then a.length else 1 + min3 a.length (lev a [y]) (a.length + 1) := by
  induction a with
  | nil =>
      rw [List.nil_append, lev_cons_cons]
      simp [lev_nil_left, lev_nil_right]
  | cons u a'' ih =>
      rw [List.cons_append, lev_cons_cons, ih, lev_cons_cons u y]
      have e1 : lev (a'' ++ [x]) [] = a''.length + 1 := by
        rw [lev_nil_right, List.length_append, List.length_cons, List.length_nil]
      have e2 : lev (u :: (a'' ++ [x])) [] = a''.length + 1 + 1 := by
        rw [lev_nil_right]
        simp only [List.length_cons, List.length_append, List.length_nil]
      have e3 : lev a'' [] = a''.length := lev_nil_right a''
      have e4 : lev (u :: a'') [] = a''.length + 1 := lev_cons_nil u a''
      rw [e1, e2, e3, e4]
      simp only [List.length_append, List.length_cons, List.length_nil, Nat.zero_add]
      simp only [min3, Nat.min_def]
      split_ifs <;> omega

/-- `lev` satisfies the same recursion on the last characters as on the
first ones. -/
theorem lev_snoc : ∀ N (a b : List Char), a.length + b.length ≤ N → ∀ (x y : Char),
    lev (a ++ [x]) (b ++ [y]) =
      if x = y then lev a b
      else 1 + min3 (lev a b) (lev a (b ++ [y])) (lev (a ++ [x]) b) := by
  intro N
  induction N with
  | zero =>
      intro a b h x y
      have ha : a = [] := List.length_eq_zero.1 (by omega)
      have hb : b = [] := List.length_eq_zero.1 (by omega)
      subst ha; subst hb
      simpa using lev_cons_cons x y [] []
  | succ N ihN =>
      intro a b h x y
      cases a with
      | nil =>
          simp only [List.nil_append]
          rw [lev_single_snoc]
          simp only [lev_nil_left, List.length_append, List.length_cons, List.length_nil,
            Nat.zero_add]
      | cons u a' =>
          cases b with
          | nil =>
              simp only [List.nil_append]
              rw [lev_snoc_single]
              have e1 : lev (u :: a') [] = a'.length + 1 := lev_cons_nil u a'
              have e2 : lev ((u :: a') ++ [x]) [] = a'.length + 1 + 1 := by
                rw [lev_nil_right]
                simp only [List.length_cons, List.length_append, List.length_nil]
              rw [e1, e2]
              simp only [List.length_cons]
          | cons v b' =>
              simp only [List.length_cons] at h
              have I1 := ihN a' b' (by omega) x y
              have I2 := ihN a' (v :: b') (by simp [List.length_cons]; omega) x y
              have I3 := ihN (u :: a') b' (by simp [List.length_cons]; omega) x y
              simp only [List.cons_append] at I2 I3 ⊢
              rw [lev_cons_cons u v, I1, I2, I3]
              rw [lev_cons_cons u v a' b',
                  lev_cons_cons u v a' (b' ++ [y]),
                  lev_cons_cons u v (a' ++ [x]) b']
              by_cases hxy : x = y
              · simp only [if_pos hxy]
              · simp only [if_neg hxy]
                by_cases huv : u = v
                · simp only [if_pos huv]
                · simp only [if_neg huv]
                  rw [min3_succ, min3_succ, min9_transpose]

theorem lev_reverse : ∀ N (a b : List Char), a.length + b.length ≤ N →
    lev a.reverse b.reverse = lev a b := by
  intro N
  induction N with
  | zero =>
      intro a b h
      have ha : a = [] := List.length_eq_zero.1 (by omega)
      have hb : b = [] := List.length_eq_zero.1 (by omega)
      subst ha; subst hb; rfl
  | succ N ihN =>
      intro a b h
      cases a with
      | nil =>
          simp only [List.reverse_nil]
          rw [lev_nil_left, lev_nil_left, List.length_reverse]
      | cons x a' =>
          cases b with
          | nil =>
              simp only [List.reverse_nil]
              rw [lev_nil_right, lev_nil_right, List.length_reverse]
          | cons y b' =>
              simp only [List.reverse_cons, List.length_cons] at h ⊢
              rw [lev_snoc (a'.reverse.length + b'.reverse.length) a'.reverse b'.reverse
                    (by simp [List.length_reverse]) x y]
              have I1 := ihN a' b' (by omega)
              have I2 := ihN a' (y :: b') (by simp [List.length_cons]; omega)
              have I3 := ihN (x :: a') b' (by simp [List.length_cons]; omega)
              simp only [List.reverse_cons] at I2 I3
              rw [I1, I2, I3, lev_cons_cons x y]

theorem lev_reverse_eq (a b : List Char) : lev a.reverse b.reverse = lev a b :=
  lev_reverse (a.length + b.length) a b (Nat.le_refl _)

/-! ### The uniform code matrix is the textbook distance -/

theorem codeD_eq_lev (a b : List Char) : ∀ i j, i ≤ a.length → j ≤ b.length →
    codeD 1 1 1 a b i j = lev ((a.take i).reverse) ((b.take j).reverse) := by
  intro i
  induction i with
  | zero =>
      intro j _ hj
      rw [codeD_zero_left]
      simp only [List.take_zero, List.reverse_nil, lev_nil_left, List.length_reverse,
        List.length_take]
      rw [Nat.min_eq_left hj]
  | succ i ihi =>
      intro j
      induction j with
      | zero =>
          intro hi _
          rw [codeD_zero_right]
          simp only [List.take_zero, List.reverse_nil, lev_nil_right, List.length_reverse,
            List.length_take]
          rw [Nat.min_eq_left hi]
      | succ j ihj =>
          intro hi hj
          have hta : (a.take (i + 1)).reverse = a.getD i ' ' :: (a.take i).reverse := by
            rw [take_succ_getD ' ' (by omega), List.reverse_append]
            rfl
          have htb : (b.take (j + 1)).reverse = b.getD j ' ' :: (b.take j).reverse := by
            rw [take_succ_getD ' ' (by omega), List.reverse_append]
            rfl
          have I1 := ihi j (by omega) (by omega)
          have I2 := ihi (j + 1) (by omega) hj
          have I3 := ihj (by omega) (by omega)
          rw [htb] at I2
          rw [hta] at I3
          rw [codeD_succ_succ, hta, htb, lev_cons_cons, I1, I2, I3]
          by_cases hc : a.getD i ' ' = b.getD j ' '
          · rw [if_pos hc, if_neg (fun hne => hne hc)]
            simp only [Nat.zero_mul, Nat.add_zero]
            exact min3_eq_left _ _ _
              (lev_le_cons_right (b.getD j ' ') _ _)
              (lev_le_cons_left (a.getD i ' ') _ _)
          · rw [if_neg hc, if_pos hc]
            simp only [Nat.one_mul]
            rw [min3_succ']
            omega

/-- The uniform code function is the textbook distance. -/
theorem levenshtein_eq_lev (a b : List Char) : levenshtein a b = lev a b := by
  unfold levenshtein
  by_cases hab : a = b
  · rw [levenshtein_with_weigths, if_pos hab]
    subst hab
    exact (lev_self a).symm
  · by_cases ha : a = []
    · subst ha
      rw [levenshtein_with_weigths, if_neg hab, if_pos rfl]
      exact (lev_nil_left b).symm
    · by_cases hb : b = []
      · subst hb
        rw [levenshtein_with_weigths, if_neg hab, if_neg ha, if_pos rfl]
        exact (lev_nil_right a).symm
      · rw [levW_eq_codeD 1 1 1 a b ha hb,
            codeD_eq_lev a b a.length b.length (Nat.le_refl _) (Nat.le_refl _),
            List.take_length, List.take_length]
        exact lev_reverse_eq a b


/-! ### The limit variant: row minima and early exit -/

/-- The limit inner loop is the plain inner loop plus a fold of `optMin`
over the produced row. -/
theorem processRowLim_eq (s d ins : Nat) (ac : Char) :
    ∀ (bs : List Char) (cache : List Nat) (diagonal left : Nat) (acc : Option Nat),
      processRowLim s d ins ac bs cache diagonal left acc
        = ((processRow s d ins ac bs cache diagonal left).1,
           (processRow s d ins ac bs cache diagonal left).2,
           List.foldl optMin acc (processRow s d ins ac bs cache diagonal left).1) := by
  intro bs
  induction bs with
  | nil =>
      intro cache diagonal left acc
      cases cache <;> rfl
  | cons bc bs' ih =>
      intro cache diagonal left acc
      cases cache with
      | nil => rfl
      | cons cj cs =>
          show (_ :: (processRowLim s d ins ac bs' cs cj _ (optMin acc _)).1,
                (processRowLim s d ins ac bs' cs cj _ (optMin acc _)).2.1,
                (processRowLim s d ins ac bs' cs cj _ (optMin acc _)).2.2) = _
          rw [ih]
          rfl

theorem decide_lt_eq_true {k v : Nat} (h : k < v) : decide (k < v) = true :=
  decide_eq_true h

/-- If the folded row minimum exceeds the limit, so did the accumulator,
and every element of the row exceeds the limit. -/
theorem bestExceeds_foldl :
    ∀ (L : List Nat) (acc : Option Nat) (k : Nat),
      bestExceeds (List.foldl optMin acc L) k = true →
        bestExceeds acc k = true ∧ ∀ x ∈ L, k < x := by
  intro L
  induction L with
  | nil =>
      intro acc k h
      exact ⟨h, fun x hx => absurd hx (List.not_mem_nil x)⟩
  | cons x L' ih =>
      intro acc k h
      rw [List.foldl_cons] at h
      obtain ⟨h1, h2⟩ := ih (optMin acc x) k h
      have hx : k < x ∧ bestExceeds acc k = true := by
        cases acc with
        | none =>
            simp only [optMin, bestExceeds] at h1
            exact ⟨of_decide_eq_true h1, rfl⟩
        | some m =>
            simp only [optMin] at h1
            by_cases hlt : x < m
            · rw [if_pos hlt] at h1
              simp only [bestExceeds] at h1 ⊢
              have := of_decide_eq_true h1
              exact ⟨this, decide_lt_eq_true (by omega)⟩
            · rw [if_neg hlt] at h1
              simp only [bestExceeds] at h1 ⊢
              have := of_decide_eq_true h1
              exact ⟨by omega, h1⟩
      refine ⟨hx.2, fun y hy => ?_⟩
      rcases List.mem_cons.1 hy with rfl | hy'
      · exact hx.1
      · exact h2 y hy'

/-- Raising the limit cannot turn a passing row test into a failing one. -/
theorem bestExceeds_mono (M : Option Nat) (k : Nat)
    (h : bestExceeds M k = false) : bestExceeds M (k + 1) = false := by
  cases M with
  | none => simp [bestExceeds] at h
  | some v =>
      simp only [bestExceeds, decide_eq_false_iff_not] at h ⊢
      omega

/-- The outer limit loop is monotone in the limit. -/
theorem limRows_mono (s d ins k : Nat) (b : List Char) :
    ∀ (ad : List Char) (i : Nat) (cache : List Nat),
      limRows s d ins k b ad i cache = true →
      limRows s d ins (k + 1) b ad i cache = true := by
  intro ad
  induction ad with
  | nil => intro i cache _; rfl
  | cons ac ad' ih =>
      intro i cache h
      simp only [limRows] at h ⊢
      cases hex : bestExceeds
          (processRowLim s d ins ac b cache i (i + 1) none).2.2 k with
      | true => rw [if_pos hex] at h; exact absurd h (by simp)
      | false =>
          rw [if_neg (by simp [hex])] at h
          rw [if_neg (by simp [bestExceeds_mono _ k hex])]
          exact ih (i + 1) _ h

/-- Shared description of the initial cache `(1..=b_len)`. -/
theorem tailCache_zero (s d ins : Nat) (a b : List Char) :
    tailCache s d ins a b 0 0 = List.range' 1 b.length := by
  unfold tailCache
  rw [Nat.sub_zero]
  rw [show (fun t => codeD s d ins a b 0 (t + 1)) = (fun t => t + 1) from rfl]
  exact range'_map_succ 0 b.length

/-- A `false` answer of the limit loop exhibits a row of the code's matrix
whose interior entries all exceed the limit. -/
theorem limRows_false_spec (s d ins k : Nat) (a b : List Char) :
    ∀ (ad : List Char) (i : Nat), a.drop i = ad → i ≤ a.length →
      limRows s d ins k b ad i (tailCache s d ins a b i 0) = false →
      ∃ r, i < r ∧ r ≤ a.length ∧
        ∀ j, 1 ≤ j → j ≤ b.length → k < codeD s d ins a b r j := by
  intro ad
  induction ad with
  | nil =>
      intro i hdrop hle h
      exact absurd h (by simp [limRows])
  | cons ac ad' ih =>
      intro i hdrop hle h
      have hlt : i < a.length := drop_cons_lt hdrop
      have hac : a.getD i ' ' = ac := drop_cons_getD ' ' hdrop
      have hd' : a.drop (i + 1) = ad' := drop_cons_succ hdrop
      have hrow : processRow s d ins ac b (tailCache s d ins a b i 0) i (i + 1)
          = (tailCache s d ins a b (i + 1) 0, codeD s d ins a b (i + 1) b.length) := by
        have hsp := processRow_spec s d ins a b b 0 i (List.drop_zero b) (Nat.zero_le _)
        rw [codeD_zero_right s d ins a b i, codeD_zero_right s d ins a b (i + 1)] at hsp
        rw [← hac]
        exact hsp
      simp only [limRows, processRowLim_eq, hrow] at h
      cases hex : bestExceeds
          (List.foldl optMin none (tailCache s d ins a b (i + 1) 0)) k with
      | true =>
          refine ⟨i + 1, Nat.lt_succ_self i, by omega, fun j hj1 hj2 => ?_⟩
          have hmem : codeD s d ins a b (i + 1) j ∈ tailCache s d ins a b (i + 1) 0 := by
            unfold tailCache
            rw [Nat.sub_zero]
            refine List.mem_map.2 ⟨j - 1, List.mem_range'_1.2 ⟨by omega, by omega⟩, ?_⟩
            congr 1
            omega
          exact (bestExceeds_foldl _ none k hex).2 _ hmem
      | false =>
          rw [if_neg (by simp [hex])] at h
          obtain ⟨r, hr1, hr2, hr3⟩ := ih (i + 1) hd' (by omega) h
          exact ⟨r, by omega, hr2, hr3⟩

/-- Interior cells of column 1 are bounded by the row index
(uniform weights). -/
theorem codeD_col_one_le (a b : List Char) (r : Nat) :
    codeD 1 1 1 a b (r + 1) 1 ≤ r + 1 := by
  have e := codeD_succ_succ 1 1 1 a b r 0
  simp only [Nat.zero_add] at e
  rw [codeD_zero_right, codeD_zero_right] at e
  rw [e]
  by_cases hc : a.getD r ' ' ≠ b.getD 0 ' '
  · rw [if_pos hc]
    have h := min3_le_left (r + 1 * 1) (codeD 1 1 1 a b r 1 + 1) (r + 1 + 1)
    omega
  · rw [if_neg hc]
    have h := min3_le_left (r + 0 * 1) (codeD 1 1 1 a b r 1 + 1) (r + 1 + 1)
    omega

/-- Once every interior entry of a row exceeds `k` (and `k` is below the
row index), every later row also exceeds `k` everywhere. -/
theorem codeD_row_propagate (s d ins : Nat) (a b : List Char) (k r : Nat)
    (hkr : k < r)
    (hr : ∀ j, 1 ≤ j → j ≤ b.length → k < codeD s d ins a b r j) :
    ∀ i, r ≤ i → ∀ j, 1 ≤ j → j ≤ b.length → k < codeD s d ins a b i j := by
  intro i
  induction i with
  | zero => intro hri; omega
  | succ i ih =>
      intro hri
      rcases Nat.lt_or_ge r (i + 1) with hlt | hge
      · have hrow := ih (by omega)
        intro j
        induction j with
        | zero => intro hj1 _; omega
        | succ j ihj =>
            intro _ hj2
            rw [codeD_succ_succ, lt_min3_iff]
            refine ⟨?_, ?_, ?_⟩
            · cases j with
              | zero =>
                  rw [codeD_zero_right]
                  omega
              | succ t =>
                  have := hrow (t + 1) (by omega) (by omega)
                  omega
            · have := hrow (j + 1) (by omega) hj2
              omega
            · cases j with
              | zero =>
                  rw [codeD_zero_right]
                  omega
              | succ t =>
                  have := ihj (by omega) (by omega)
                  omega
      · have hreq : r = i + 1 := by omega
        subst hreq
        exact hr


/-! ### The indexed loops never go out of bounds and agree with the
lock-step loops -/

theorem set_append_len : ∀ (pre : List Nat) (x y : Nat) (xs : List Nat),
    (pre ++ x :: xs).set pre.length y = pre ++ y :: xs := by
  intro pre
  induction pre with
  | nil => intro x y xs; rfl
  | cons p ps ih => intro x y xs; simp [List.set, ih]

theorem getElem?_append_len : ∀ (pre : List Nat) (x : Nat) (xs : List Nat),
    (pre ++ x :: xs)[pre.length]? = some x := by
  intro pre x xs
  rw [List.getElem?_append_right (Nat.le_refl _)]
  simp

theorem processRow_length (s d ins : Nat) (ac : Char) :
    ∀ (bs : List Char) (cache : List Nat) (diagonal left : Nat),
      cache.length = bs.length →
      (processRow s d ins ac bs cache diagonal left).1.length = bs.length := by
  intro bs
  induction bs with
  | nil => intro cache _ _ _; rfl
  | cons bc bs' ih =>
      intro cache diagonal left hlen
      cases cache with
      | nil => simp at hlen
      | cons cj cs =>
          simp only [List.length_cons] at hlen
          simp only [processRow, List.length_cons]
          rw [ih cs cj _ (by omega)]

/-- The indexed inner loop, reading `cache[j]` and writing `cache.set j`,
agrees with the lock-step inner loop and never hits the `none` branch. -/
theorem rowIdx_eq (s d ins : Nat) (ac : Char) :
    ∀ (bs : List Char) (pre rest : List Nat) (diagonal left : Nat),
      rest.length = bs.length →
      rowIdx s d ins ac bs pre.length (pre ++ rest) diagonal left
        = some (pre ++ (processRow s d ins ac bs rest diagonal left).1,
                (processRow s d ins ac bs rest diagonal left).2) := by
  intro bs
  induction bs with
  | nil =>
      intro pre rest diagonal left hlen
      have h0 : rest = [] := List.length_eq_zero.1 hlen
      subst h0
      rfl
  | cons bc bs' ih =>
      intro pre rest diagonal left hlen
      cases rest with
      | nil => simp at hlen
      | cons cj cs =>
          simp only [List.length_cons] at hlen
          simp only [rowIdx, processRow, getElem?_append_len]
          rw [set_append_len]
          have step := ih (pre ++ [min3 (diagonal + (if ac ≠ bc then 1 else 0) * s)
              (cj + d) (left + ins)]) cs cj
            (min3 (diagonal + (if ac ≠ bc then 1 else 0) * s) (cj + d) (left + ins))
            (by omega)
          simp only [List.length_append, List.length_cons, List.length_nil, Nat.zero_add,
            List.append_assoc, List.singleton_append] at step
          rw [step]

/-- Same statement for the limit variant of the inner loop. -/
theorem rowIdxLim_eq (s d ins : Nat) (ac : Char) :
    ∀ (bs : List Char) (pre rest : List Nat) (diagonal left : Nat) (acc : Option Nat),
      rest.length = bs.length →
      rowIdxLim s d ins ac bs pre.length (pre ++ rest) diagonal left acc
        = some (pre ++ (processRowLim s d ins ac bs rest diagonal left acc).1,
                (processRowLim s d ins ac bs rest diagonal left acc).2.2) := by
  intro bs
  induction bs with
  | nil =>
      intro pre rest diagonal left acc hlen
      have h0 : rest = [] := List.length_eq_zero.1 hlen
      subst h0
      rfl
  | cons bc bs' ih =>
      intro pre rest diagonal left acc hlen
      cases rest with
      | nil => simp at hlen
      | cons cj cs =>
          simp only [List.length_cons] at hlen
          simp only [rowIdxLim, processRowLim, getElem?_append_len]
          rw [set_append_len]
          have step := ih (pre ++ [min3 (diagonal + (if ac ≠ bc then 1 else 0) * s)
              (cj + d) (left + ins)]) cs cj
            (min3 (diagonal + (if ac ≠ bc then 1 else 0) * s) (cj + d) (left + ins))
            (optMin acc (min3 (diagonal + (if ac ≠ bc then 1 else 0) * s) (cj + d)
              (left + ins)))
            (by omega)
          simp only [List.length_append, List.length_cons, List.length_nil, Nat.zero_add,
            List.append_assoc, List.singleton_append] at step
          rw [step]

theorem levRowsIdx_eq (s d ins : Nat) (b : List Char) :
    ∀ (ad : List Char) (i : Nat) (cache : List Nat) (left : Nat),
      cache.length = b.length →
      levRowsIdx s d ins b ad i cache left
        = some (levRows s d ins b ad i cache left) := by
  intro ad
  induction ad with
  | nil => intro i cache left _; rfl
  | cons ac ad' ih =>
      intro i cache left hlen
      have hrow := rowIdx_eq s d ins ac b ([] : List Nat) cache i (i + 1) hlen
      simp only [List.nil_append, List.length_nil] at hrow
      simp only [levRowsIdx, levRows, hrow]
      exact ih (i + 1) _ _ (processRow_length s d ins ac b cache i (i + 1) hlen)

theorem limRowsIdx_eq (s d ins k : Nat) (b : List Char) :
    ∀ (ad : List Char) (i : Nat) (cache : List Nat),
      cache.length = b.length →
      limRowsIdx s d ins k b ad i cache
        = some (limRows s d ins k b ad i cache) := by
  intro ad
  induction ad with
  | nil => intro i cache _; rfl
  | cons ac ad' ih =>
      intro i cache hlen
      have hrow := rowIdxLim_eq s d ins ac b ([] : List Nat) cache i (i + 1) none hlen
      simp only [List.nil_append, List.length_nil] at hrow
      simp only [limRowsIdx, limRows, hrow]
      have hlen2 : (processRowLim s d ins ac b cache i (i + 1) none).1.length = b.length := by
        rw [processRowLim_eq]
        exact processRow_length s d ins ac b cache i (i + 1) hlen
      cases hex : bestExceeds (processRowLim s d ins ac b cache i (i + 1) none).2.2 k with
      | true => simp
      | false => simpa using ih (i + 1) _ hlen2

/-- The fully indexed models of both public functions always return a
defined result, equal to the lock-step models. -/
theorem idx_models_agree (a b : List Char) (k s d ins : Nat) :
    levenshtein_with_weigths_idx a b s d ins
      = some (levenshtein_with_weigths a b s d ins) ∧
    levenshtein_is_within_limit_with_weigths_idx a b k s d ins
      = some (levenshtein_is_within_limit_with_weigths a b k s d ins) := by
  constructor
  · unfold levenshtein_with_weigths_idx levenshtein_with_weigths
    by_cases hab : a = b
    · rw [if_pos hab, if_pos hab]
    · rw [if_neg hab, if_neg hab]
      by_cases ha : a = []
      · rw [if_pos ha, if_pos ha]
      · rw [if_neg ha, if_neg ha]
        by_cases hb : b = []
        · rw [if_pos hb, if_pos hb]
        · rw [if_neg hb, if_neg hb]
          exact levRowsIdx_eq s d ins b a 0 (List.range' 1 b.length) 1
            (by simp [List.length_range'])
  · unfold levenshtein_is_within_limit_with_weigths_idx
      levenshtein_is_within_limit_with_weigths
    by_cases hab : a = b
    · rw [if_pos hab, if_pos hab]
    · rw [if_neg hab, if_neg hab]
      by_cases ha : a = []
      · rw [if_pos ha, if_pos ha]
      · rw [if_neg ha, if_neg ha]
        by_cases hb : b = []
        · rw [if_pos hb, if_pos hb]
        · rw [if_neg hb, if_neg hb]
          exact limRowsIdx_eq s d ins k b a 0 (List.range' 1 b.length)
            (by simp [List.length_range'])


/-! ### Claim theorems -/

/-- Claim C1, counterexample: on `a = "x"`, `b = "yy"` with weights
`sub = del = 10`, `ins = 2`, the code returns 5 while the matrix of the
claim (weighted boundary, i.e. the true minimum weighted edit distance)
is 12.  The code's boundary row and column ignore the weights. -/
theorem claim1_counterexample :
    ¬ (levenshtein_with_weigths ['x'] ['y', 'y'] 10 10 2
        = specD 10 10 2 ['x'] ['y', 'y'] 1 2) := by
  decide

/-- Claim C1 as amended: for non-empty inputs
`levenshtein_with_weigths a b sub del ins` equals `D[|a|][|b|]` of the
matrix with the weight-blind boundary `D[0][j] = j`, `D[i][0] = i` and the
claimed interior recurrence — not of the claimed matrix with boundary
`j * ins` / `i * del`. -/
theorem claim1_amended (a b : List Char) (s d ins : Nat)
    (ha : a ≠ []) (hb : b ≠ []) :
    levenshtein_with_weigths a b s d ins = codeD s d ins a b a.length b.length :=
  levW_eq_codeD s d ins a b ha hb

/-- Witness for the amended claim C1 at a concrete input. -/
theorem claim1_witness :
    (['x'] ≠ ([] : List Char) ∧ ['y', 'y'] ≠ ([] : List Char)) ∧
      levenshtein_with_weigths ['x'] ['y', 'y'] 10 10 2
        = codeD 10 10 2 ['x'] ['y', 'y'] ['x'].length ['y', 'y'].length :=
  ⟨⟨by decide, by decide⟩, claim1_amended ['x'] ['y', 'y'] 10 10 2 (by decide) (by decide)⟩

/-- Claim C2 is false of the code and the code contradicts its own doc
comment ("Checks if the levenshtein distance of the two strings is within
the given limit"): on `a = "ab"`, `b = "ba"`, `limit = 1` the function
returns `true` although the distance is 2, because the loop only ever
tests row minima and never compares the final distance with the limit;
and on `a = ""`, `b = "a"`, `limit = 1` it returns `false` although the
distance is 1 ≤ 1, because the empty shortcut uses a strict `<`. -/
theorem claim2_bug_eval :
    (levenshtein_is_within_limit ['a', 'b'] ['b', 'a'] 1 = true ∧
      levenshtein ['a', 'b'] ['b', 'a'] = 2) ∧
    (levenshtein_is_within_limit [] ['a'] 1 = false ∧
      levenshtein [] ['a'] = 1) := by
  decide

/-- Claim C3, counterexample: with uniform weight `w = 2` on `a = "a"`,
`b = "bb"` the code returns 3, but `2 * levenshtein a b = 4`: the
weight-blind boundary breaks the scaling law. -/
theorem claim3_counterexample :
    ¬ (levenshtein_with_weigths ['a'] ['b', 'b'] 2 2 2
        = 2 * levenshtein ['a'] ['b', 'b']) := by
  decide

/-- Claim C3 as amended: the scaling law
`levenshtein_with_weigths a b w w w = w * levenshtein a b` holds for
`w = 1` (all inputs) and for `w = 0` (non-empty inputs); for every
`w ≥ 2` it fails in general. -/
theorem claim3_amended (a b : List Char) :
    levenshtein_with_weigths a b 1 1 1 = 1 * levenshtein a b ∧
    (a ≠ [] → b ≠ [] → levenshtein_with_weigths a b 0 0 0 = 0 * levenshtein a b) := by
  constructor
  · rw [Nat.one_mul]
    rfl
  · intro ha hb
    rw [Nat.zero_mul]
    by_cases hab : a = b
    · rw [levenshtein_with_weigths, if_pos hab]
    · rw [levW_eq_codeD 0 0 0 a b ha hb]
      exact codeD_zero_weights a b a.length b.length
        (List.length_pos.2 ha) (List.length_pos.2 hb)

/-- Witness for the amended claim C3 at a concrete input. -/
theorem claim3_witness :
    levenshtein_with_weigths ['a'] ['b'] 0 0 0 = 0 * levenshtein ['a'] ['b'] :=
  (claim3_amended ['a'] ['b']).2 (by decide) (by decide)

/-- Claim C4, counterexample: with all-zero weights the result is 0 on the
distinct inputs `"a"`, `"b"`, so "equals 0 iff the sequences are
identical" fails for weight 0. -/
theorem claim4_counterexample :
    levenshtein_with_weigths ['a'] ['b'] 0 0 0 = 0 ∧ ['a'] ≠ ['b'] := by
  decide

/-- Claim C4 as amended: for positive weights the weighted distance is 0
iff the inputs are equal; `levenshtein a a = 0` holds without any
restriction on weights. -/
theorem claim4_amended (a b : List Char) (s d ins : Nat)
    (hs : 1 ≤ s) (hd : 1 ≤ d) (hins : 1 ≤ ins) :
    (levenshtein_with_weigths a b s d ins = 0 ↔ a = b) ∧ levenshtein a a = 0 := by
  constructor
  · constructor
    · intro h0
      by_cases hab : a = b
      · exact hab
      · by_cases ha : a = []
        · subst ha
          rw [levenshtein_with_weigths, if_neg hab, if_pos rfl] at h0
          exact absurd (List.length_eq_zero.1 h0).symm hab
        · by_cases hb : b = []
          · subst hb
            rw [levenshtein_with_weigths, if_neg hab, if_neg ha, if_pos rfl] at h0
            exact absurd (List.length_eq_zero.1 h0) ha
          · rw [levW_eq_codeD s d ins a b ha hb] at h0
            have := codeD_pos_take s d ins a b hs hd hins a.length b.length
              (Nat.le_refl _) (Nat.le_refl _) h0
            rw [List.take_length, List.take_length] at this
            exact absurd this hab
    · intro hab
      rw [levenshtein_with_weigths, if_pos hab]
  · rw [levenshtein, levenshtein_with_weigths, if_pos rfl]

/-- Witness for the amended claim C4 at a concrete input. -/
theorem claim4_witness :
    (levenshtein_with_weigths ['a'] ['b'] 1 1 1 = 0 ↔ ['a'] = ['b']) ∧
      levenshtein ['a'] ['a'] = 0 :=
  claim4_amended ['a'] ['b'] 1 1 1 (by decide) (by decide) (by decide)

/-- Claim C5, confirmed: for non-empty `l` and arbitrary weights, the
empty-input shortcuts return the character count of the non-empty side,
with no weight applied. -/
theorem claim5_empty_shortcut (l : List Char) (s d ins : Nat) (hl : l ≠ []) :
    levenshtein_with_weigths [] l s d ins = l.length ∧
    levenshtein_with_weigths l [] s d ins = l.length := by
  constructor
  · rw [levenshtein_with_weigths, if_neg (fun h => hl h.symm), if_pos rfl]
  · rw [levenshtein_with_weigths, if_neg hl, if_neg hl, if_pos rfl]

/-- Witness for claim C5 at a concrete (multi-byte) character. -/
theorem claim5_witness :
    levenshtein_with_weigths [] ['é'] 5 7 9 = ['é'].length ∧
    levenshtein_with_weigths ['é'] [] 5 7 9 = ['é'].length :=
  claim5_empty_shortcut ['é'] 5 7 9 (by decide)

/-- Claim C6, confirmed: for non-empty `l`, the within-limit shortcuts
answer `true` exactly when the character count of the non-empty side is
strictly below the limit, regardless of the weights. -/
theorem claim6_empty_shortcut (l : List Char) (k s d ins : Nat) (hl : l ≠ []) :
    (levenshtein_is_within_limit_with_weigths [] l k s d ins = true ↔ l.length < k) ∧
    (levenshtein_is_within_limit_with_weigths l [] k s d ins = true ↔ l.length < k) := by
  constructor
  · rw [levenshtein_is_within_limit_with_weigths, if_neg (fun h => hl h.symm), if_pos rfl]
    exact decide_eq_true_iff
  · rw [levenshtein_is_within_limit_with_weigths, if_neg hl, if_neg hl, if_pos rfl]
    exact decide_eq_true_iff

/-- Witness for claim C6 at a concrete input. -/
theorem claim6_witness :
    (levenshtein_is_within_limit_with_weigths [] ['a'] 2 3 4 5 = true ↔
      ['a'].length < 2) ∧
    (levenshtein_is_within_limit_with_weigths ['a'] [] 2 3 4 5 = true ↔
      ['a'].length < 2) :=
  claim6_empty_shortcut ['a'] 2 3 4 5 (by decide)

/-- Claim C7, confirmed: raising the limit by one preserves a `true`
answer of `levenshtein_is_within_limit`. -/
theorem claim7_limit_mono (a b : List Char) (k : Nat)
    (h : levenshtein_is_within_limit a b k = true) :
    levenshtein_is_within_limit a b (k + 1) = true := by
  rw [levenshtein_is_within_limit, levenshtein_is_within_limit_with_weigths] at h ⊢
  by_cases hab : a = b
  · rw [if_pos hab]
  · rw [if_neg hab] at h ⊢
    by_cases ha : a = []
    · rw [if_pos ha] at h ⊢
      rw [decide_eq_true_iff] at h ⊢
      omega
    · rw [if_neg ha] at h ⊢
      by_cases hb : b = []
      · rw [if_pos hb] at h ⊢
        rw [decide_eq_true_iff] at h ⊢
        omega
      · rw [if_neg hb] at h ⊢
        exact limRows_mono 1 1 1 k b a 0 _ h

/-- Witness for claim C7 at a concrete input. -/
theorem claim7_witness :
    levenshtein_is_within_limit ['a'] ['b'] 1 = true ∧
    levenshtein_is_within_limit ['a'] ['b'] 2 = true :=
  ⟨by decide, claim7_limit_mono ['a'] ['b'] 1 (by decide)⟩

/-- Claim C8, confirmed: the uniform distance satisfies the triangle
inequality. -/
theorem claim8_triangle (a b c : List Char) :
    levenshtein a c ≤ levenshtein a b + levenshtein b c := by
  rw [levenshtein_eq_lev, levenshtein_eq_lev, levenshtein_eq_lev]
  exact lev_triangle a b c

/-- Claim C9, confirmed: the indexed models of both loops, in which every
`cache[j]` access is checked and an out-of-bounds access would return
`none`, always return `some` result, equal to the lock-step models: the
out-of-bounds branch is unreachable for every input. -/
theorem claim9_no_out_of_bounds (a b : List Char) (k s d ins : Nat) :
    levenshtein_with_weigths_idx a b s d ins
      = some (levenshtein_with_weigths a b s d ins) ∧
    levenshtein_is_within_limit_with_weigths_idx a b k s d ins
      = some (levenshtein_is_within_limit_with_weigths a b k s d ins) :=
  idx_models_agree a b k s d ins

/-- Claim C10, confirmed: for non-empty inputs and uniform weights a
`false` answer of the early-exit function is sound — the distance really
exceeds the limit. -/
theorem claim10_early_exit_sound (a b : List Char) (k : Nat)
    (ha : a ≠ []) (hb : b ≠ [])
    (h : levenshtein_is_within_limit a b k = false) :
    k < levenshtein a b := by
  rw [levenshtein_is_within_limit, levenshtein_is_within_limit_with_weigths] at h
  by_cases hab : a = b
  · rw [if_pos hab] at h
    exact absurd h (by simp)
  · rw [if_neg hab, if_neg ha, if_neg hb] at h
    rw [← tailCache_zero 1 1 1 a b] at h
    obtain ⟨r, hr0, hrm, hrow⟩ :=
      limRows_false_spec 1 1 1 k a b a 0 (List.drop_zero a) (Nat.zero_le _) h
    have hn : 1 ≤ b.length := List.length_pos.2 hb
    have hr1 : k < codeD 1 1 1 a b r 1 := hrow 1 (Nat.le_refl 1) hn
    have hcle : codeD 1 1 1 a b r 1 ≤ r := by
      cases r with
      | zero => omega
      | succ r' => exact codeD_col_one_le a b r'
    have hkr : k < r := by omega
    have hfin := codeD_row_propagate 1 1 1 a b k r hkr hrow a.length hrm
      b.length hn (Nat.le_refl _)
    rw [levenshtein, levW_eq_codeD 1 1 1 a b ha hb]
    exact hfin

/-- Witness for claim C10 at a concrete input. -/
theorem claim10_witness :
    (['a'] ≠ ([] : List Char) ∧ ['b'] ≠ ([] : List Char) ∧
      levenshtein_is_within_limit ['a'] ['b'] 0 = false) ∧
    0 < levenshtein ['a'] ['b'] :=
  ⟨⟨by decide, by decide, by decide⟩,
    claim10_early_exit_sound ['a'] ['b'] 0 (by decide) (by decide) (by decide)⟩


end LevSrc
